import Mathlib

/-
  Verification of the depth-track renderer in
  `src/components/WellDataChart.tsx`.

  The component is a pure function of its `data` prop.  We embed it
  shallowly: JS numbers that arise from the raw data are rationals
  (the renderer assumes type-correct numeric input), while the outputs of
  the scale functions are modelled by `JSNum`, a rational extended with
  `NaN` and the two infinities, because the scale expressions divide by a
  possibly-zero range and IEEE-754 semantics then matter.
-/

namespace WellChart

/-- One record of the `data` prop (`WellDataPoint` in the source). -/
structure WellDataPoint where
  depth : ℚ
  rockComposition : String
  DT : ℚ
  GR : ℚ
deriving DecidableEq, Repr

/-- Result of a JS floating-point computation: a finite value, `NaN`, or an
infinity.  Only the operations the chart actually performs are defined. -/
inductive JSNum where
  | nan : JSNum
  | posInf : JSNum
  | negInf : JSNum
  | val : ℚ → JSNum
deriving DecidableEq, Repr

/-- JS division `a / b` of two finite numbers: `0/0` is `NaN`, `a/0` for
nonzero `a` is a signed infinity. -/
def jsDiv (a b : ℚ) : JSNum :=
  if b = 0 then
    if a = 0 then .nan
    else if 0 < a then .posInf else .negInf
  else .val (a / b)

/-- JS multiplication `x * c` by a finite constant. -/
def JSNum.mulQ : JSNum → ℚ → JSNum
  | .nan, _ => .nan
  | .posInf, c => if c = 0 then .nan else if 0 < c then .posInf else .negInf
  | .negInf, c => if c = 0 then .nan else if 0 < c then .negInf else .posInf
  | .val a, c => .val (a * c)

/-- JS addition `c + x` of a finite constant and an intermediate result. -/
def JSNum.addL (c : ℚ) : JSNum → JSNum
  | .nan => .nan
  | .posInf => .posInf
  | .negInf => .negInf
  | .val a => .val (c + a)

/-- JS subtraction `x - y` of two intermediate results. -/
def JSNum.sub : JSNum → JSNum → JSNum
  | .nan, _ => .nan
  | _, .nan => .nan
  | .posInf, .posInf => .nan
  | .posInf, _ => .posInf
  | .negInf, .negInf => .nan
  | .negInf, _ => .negInf
  | .val _, .posInf => .negInf
  | .val _, .negInf => .posInf
  | .val a, .val b => .val (a - b)

/-- JS comparison `x > q` against a finite constant; `NaN` compares false. -/
def JSNum.gtQ : JSNum → ℚ → Bool
  | .nan, _ => false
  | .posInf, _ => true
  | .negInf, _ => false
  | .val a, q => decide (q < a)

/-- The comparator key of `[...data].sort((a, b) => a.depth - b.depth)`. -/
def depthLE (a b : WellDataPoint) : Prop := a.depth ≤ b.depth

/-- Strict version of `depthLE`, used to state uniqueness of sorted output. -/
def depthLT (a b : WellDataPoint) : Prop := a.depth < b.depth

instance : DecidableRel depthLE :=
  fun a b => inferInstanceAs (Decidable (a.depth ≤ b.depth))

instance : DecidableRel depthLT :=
  fun a b => inferInstanceAs (Decidable (a.depth < b.depth))

instance : IsTotal WellDataPoint depthLE := ⟨fun a b => le_total a.depth b.depth⟩

instance : IsTrans WellDataPoint depthLE := ⟨fun _ _ _ h1 h2 => le_trans h1 h2⟩

instance : IsAntisymm WellDataPoint depthLT :=
  ⟨fun a _ h1 h2 => absurd (lt_trans h1 h2) (lt_irrefl a.depth)⟩

/-- `[...data].sort((a, b) => a.depth - b.depth)` — ECMAScript `sort` is
stable, so it is the stable ascending sort by `depth`; insertion sort with
`depthLE` is exactly that sort. -/
def sortedData (data : List WellDataPoint) : List WellDataPoint :=
  List.insertionSort depthLE data

/-- `Math.min(...)` over a spread list; the component only evaluates it on
non-empty data (the empty case is behind the empty-input guard). -/
def qMin : List ℚ → ℚ
  | [] => 0
  | x :: xs => xs.foldl min x

/-- `Math.max(...)` over a spread list, as for `qMin`. -/
def qMax : List ℚ → ℚ
  | [] => 0
  | x :: xs => xs.foldl max x

/-- `minDepth` computed from the sorted data. -/
def minDepth (sd : List WellDataPoint) : ℚ := qMin (sd.map (·.depth))

/-- `maxDepth` computed from the sorted data. -/
def maxDepth (sd : List WellDataPoint) : ℚ := qMax (sd.map (·.depth))

/-- `depthRange = maxDepth - minDepth`. -/
def depthRange (sd : List WellDataPoint) : ℚ := maxDepth sd - minDepth sd

/-- `minDT`. -/
def minDT (sd : List WellDataPoint) : ℚ := qMin (sd.map (·.DT))

/-- `maxDT`. -/
def maxDT (sd : List WellDataPoint) : ℚ := qMax (sd.map (·.DT))

/-- `minGR`. -/
def minGR (sd : List WellDataPoint) : ℚ := qMin (sd.map (·.GR))

/-- `maxGR`. -/
def maxGR (sd : List WellDataPoint) : ℚ := qMax (sd.map (·.GR))

/-- `chartHeight = 600`. -/
def chartHeight : ℚ := 600

/-- `chartWidth = 900`. -/
def chartWidth : ℚ := 900

/-- `padding.top`. -/
def paddingTop : ℚ := 40

/-- `padding.right`. -/
def paddingRight : ℚ := 40

/-- `padding.bottom`. -/
def paddingBottom : ℚ := 60

/-- `padding.left`. -/
def paddingLeft : ℚ := 80

/-- `plotHeight = chartHeight - padding.top - padding.bottom`. -/
def plotHeight : ℚ := chartHeight - paddingTop - paddingBottom

/-- `plotWidth = chartWidth - padding.left - padding.right`. -/
def plotWidth : ℚ := chartWidth - paddingLeft - paddingRight

/-- `columnWidth = plotWidth / 3`. -/
def columnWidth : ℚ := plotWidth / 3

/-- `scaleDepth = (depth) => padding.top + ((depth - minDepth) / depthRange) * plotHeight`. -/
def scaleDepth (sd : List WellDataPoint) (depth : ℚ) : JSNum :=
  .addL paddingTop ((jsDiv (depth - minDepth sd) (depthRange sd)).mulQ plotHeight)

/-- `scaleDT = (value) => padding.left + columnWidth * 0.1
      + ((value - minDT) / (maxDT - minDT)) * (columnWidth * 0.8)`. -/
def scaleDT (sd : List WellDataPoint) (value : ℚ) : JSNum :=
  .addL (paddingLeft + columnWidth * (0.1 : ℚ))
    ((jsDiv (value - minDT sd) (maxDT sd - minDT sd)).mulQ (columnWidth * (0.8 : ℚ)))

/-- `scaleGR = (value) => padding.left + columnWidth * 2.1
      + ((value - minGR) / (maxGR - minGR)) * (columnWidth * 0.8)`. -/
def scaleGR (sd : List WellDataPoint) (value : ℚ) : JSNum :=
  .addL (paddingLeft + columnWidth * (2.1 : ℚ))
    ((jsDiv (value - minGR sd) (maxGR sd - minGR sd)).mulQ (columnWidth * (0.8 : ℚ)))

/-- The fixed ten-color palette. -/
def colors : List String :=
  ["#8b5cf6", "#ec4899", "#f59e0b", "#10b981", "#3b82f6",
   "#ef4444", "#14b8a6", "#f97316", "#a855f7", "#06b6d4"]

/-- The fallback fill `'#64748b'` of the band-fill expression. -/
def fallbackFill : String := "#64748b"

/-- Helper for `Array.from(new Set(xs))`: keep each element's first
occurrence, tracking the elements already seen. -/
def firstSeenAux (seen : List String) : List String → List String
  | [] => []
  | x :: xs => if x ∈ seen then firstSeenAux seen xs else x :: firstSeenAux (x :: seen) xs

/-- `Array.from(new Set(xs))`: the distinct elements in first-seen order. -/
def distinctFirstSeen (xs : List String) : List String := firstSeenAux [] xs

/-- `rockTypes = Array.from(new Set(sortedData.map(d => d.rockComposition)))`. -/
def rockTypes (sd : List WellDataPoint) : List String :=
  distinctFirstSeen (sd.map (·.rockComposition))

/-- JS string-keyed object assignment `m[k] = v`: overwrite in place when the
key exists, else append (JS objects preserve string-key insertion order). -/
def setKey : List (String × String) → String → String → List (String × String)
  | [], k, v => [(k, v)]
  | (k0, v0) :: rest, k, v =>
      if k0 = k then (k, v) :: rest else (k0, v0) :: setKey rest k v

/-- `rockTypes.forEach((rock, i) => { colorMap[rock] = colors[i % colors.length] })`. -/
def buildColorMap (rocks : List String) : List (String × String) :=
  rocks.enum.foldl (fun m iv => setKey m iv.2 (colors.getD (iv.1 % colors.length) "")) []

/-- The `colorMap` record built during one render. -/
def colorMap (sd : List WellDataPoint) : List (String × String) :=
  buildColorMap (rockTypes sd)

/-- JS property read `m[k]`: `undefined` is `none`. -/
def lookupColor (m : List (String × String)) (k : String) : Option String :=
  (m.find? (fun e => e.1 == k)).map (·.2)

/-- JS `a || b` for a possibly-undefined string: `undefined` and `""` are
falsy. -/
def jsOrElse (a : Option String) (b : String) : String :=
  match a with
  | none => b
  | some s => if s = "" then b else s

/-- One rock-composition band of the categorical track. -/
structure RockBand where
  category : String
  y1 : JSNum
  y2 : JSNum
  fill : String
  labelShown : Bool
deriving DecidableEq, Repr

/-- The body of `sortedData.map((point, i) => ...)` that renders one band:
`y1 = scaleDepth(point.depth)`, `y2 = nextPoint ? scaleDepth(nextPoint.depth)
: chartHeight - padding.bottom`, fill from `colorMap` with the `||` fallback,
and the label shown when `barHeight > 20`. -/
def mkRockBand (sd : List WellDataPoint) (i : ℕ) (point : WellDataPoint) : RockBand :=
  let y1 := scaleDepth sd point.depth
  let y2 := match sd.get? (i + 1) with
    | some nextPoint => scaleDepth sd nextPoint.depth
    | none => JSNum.val (chartHeight - paddingBottom)
  { category := point.rockComposition
    y1 := y1
    y2 := y2
    fill := jsOrElse (lookupColor (colorMap sd) point.rockComposition) fallbackFill
    labelShown := (y2.sub y1).gtQ 20 }

/-- The rock-composition bars: one band per sorted measurement. -/
def rockBands (sd : List WellDataPoint) : List RockBand :=
  sd.enum.map (fun ip => mkRockBand sd ip.1 ip.2)

/-- `depthTicks = 10`. -/
def depthTicks : ℕ := 10

/-- The depth grid lines: for `i` in `0..10`, the depth
`minDepth + i * (depthRange / depthTicks)`, its scaled `y`, and the rounded
tick label (`Math.round` rounds half up, as `round` on `ℚ` does). -/
def gridTicks (sd : List WellDataPoint) : List (JSNum × ℤ) :=
  (List.range (depthTicks + 1)).map (fun i =>
    let depth := minDepth sd + (i : ℚ) * (depthRange sd / (depthTicks : ℚ))
    (scaleDepth sd depth, round depth))

/-- The full geometry of one render of a non-empty dataset. -/
structure Layout where
  sorted : List WellDataPoint
  colorAssign : List (String × String)
  bands : List RockBand
  dtPoints : List (JSNum × JSNum)
  grPoints : List (JSNum × JSNum)
  ticks : List (JSNum × ℤ)
  legend : List (String × Option String)
deriving DecidableEq, Repr

/-- Everything the component draws after the empty-input guard, as a function
of the sorted data (every computation in the source reads `sortedData`). -/
def renderSorted (sd : List WellDataPoint) : Layout :=
  { sorted := sd
    colorAssign := colorMap sd
    bands := rockBands sd
    dtPoints := sd.map (fun p => (scaleDT sd p.DT, scaleDepth sd p.depth))
    grPoints := sd.map (fun p => (scaleGR sd p.GR, scaleDepth sd p.depth))
    ticks := gridTicks sd
    legend := (rockTypes sd).map (fun r => (r, lookupColor (colorMap sd) r)) }

/-- Result of the component: the explicit no-data state or a chart layout. -/
inductive RenderResult where
  | emptyInput : RenderResult
  | chart : Layout → RenderResult
deriving DecidableEq, Repr

/-- The component body: `if (!data || data.length === 0)` return the no-data
state, else sort and lay out. -/
def render (data : List WellDataPoint) : RenderResult :=
  if data.isEmpty then .emptyInput
  else .chart (renderSorted (sortedData data))

/-- The end-to-end example dataset of the spec (two measurements). -/
def stdEx : List WellDataPoint :=
  [⟨100, "Shale", 80, 40⟩, ⟨200, "Sandstone", 90, 60⟩]

/-- The same two measurements in the opposite order. -/
def stdExRev : List WellDataPoint :=
  [⟨200, "Sandstone", 90, 60⟩, ⟨100, "Shale", 80, 40⟩]

/-- A one-measurement dataset: every numeric domain is degenerate. -/
def degenEx : List WellDataPoint := [⟨100, "Shale", 80, 40⟩]

/-- Two distinct records sharing one depth. -/
def tieEx1 : List WellDataPoint := [⟨1, "A", 0, 0⟩, ⟨1, "B", 0, 0⟩]

/-- The records of `tieEx1`, swapped. -/
def tieEx2 : List WellDataPoint := [⟨1, "B", 0, 0⟩, ⟨1, "A", 0, 0⟩]

/-- The categorical band list of a dataset is gap-free and overlap-free: one
band per sorted measurement, band `i` runs from the scaled depth of
measurement `i` to the scaled depth of measurement `i + 1`, the first band
starts at the scaled minimum depth, consecutive bands share their boundary
coordinate, and the last band ends at the plot's bottom edge. -/
def bandsCoverSpec (data : List WellDataPoint) : Prop :=
  (rockBands (sortedData data)).length = (sortedData data).length ∧
  (∀ i point, (sortedData data).get? i = some point →
    ∃ b, (rockBands (sortedData data)).get? i = some b ∧
      b.y1 = scaleDepth (sortedData data) point.depth ∧
      (∀ np, (sortedData data).get? (i + 1) = some np →
        b.y2 = scaleDepth (sortedData data) np.depth) ∧
      ((sortedData data).get? (i + 1) = none →
        b.y2 = JSNum.val (chartHeight - paddingBottom))) ∧
  (∀ b, (rockBands (sortedData data)).get? 0 = some b →
    b.y1 = scaleDepth (sortedData data) (minDepth (sortedData data))) ∧
  (∀ i b b2, (rockBands (sortedData data)).get? i = some b →
    (rockBands (sortedData data)).get? (i + 1) = some b2 → b.y2 = b2.y1) ∧
  (∀ b, (rockBands (sortedData data)).get? ((sortedData data).length - 1) = some b →
    b.y2 = JSNum.val (chartHeight - paddingBottom))

/-- Every band's category is a key of the color map, so the `|| '#64748b'`
fallback of the fill expression is never taken: every fill is a palette
color. -/
def bandFillSpec (data : List WellDataPoint) : Prop :=
  ∀ b ∈ rockBands (sortedData data),
    (∃ col, lookupColor (colorMap (sortedData data)) b.category = some col ∧
      col ∈ colors) ∧
    b.fill ∈ colors ∧ b.fill ≠ fallbackFill

/-- The depth scale is monotone non-decreasing, and every band's pixel
height (`y2 - y1`) is a non-negative finite number. -/
def depthScaleMonotoneSpec (data : List WellDataPoint) : Prop :=
  (∀ d1 d2 : ℚ, d1 ≤ d2 → ∃ q1 q2 : ℚ,
    scaleDepth (sortedData data) d1 = JSNum.val q1 ∧
    scaleDepth (sortedData data) d2 = JSNum.val q2 ∧ q1 ≤ q2) ∧
  ∀ b ∈ rockBands (sortedData data),
    ∃ hgt : ℚ, JSNum.sub b.y2 b.y1 = JSNum.val hgt ∧ 0 ≤ hgt

theorem foldl_min_le_init (l : List ℚ) (a : ℚ) : l.foldl min a ≤ a := by
  induction l generalizing a with
  | nil => exact le_refl a
  | cons b t ih => exact le_trans (ih (min a b)) (min_le_left a b)

theorem foldl_min_le_of_mem {l : List ℚ} {x : ℚ} (h : x ∈ l) (a : ℚ) :
    l.foldl min a ≤ x := by
  induction l generalizing a with
  | nil => cases h
  | cons b t ih =>
    rcases List.mem_cons.mp h with rfl | hx
    · exact le_trans (foldl_min_le_init t (min a x)) (min_le_right a x)
    · exact ih hx (min a b)

theorem init_le_foldl_max (l : List ℚ) (a : ℚ) : a ≤ l.foldl max a := by
  induction l generalizing a with
  | nil => exact le_refl a
  | cons b t ih => exact le_trans (le_max_left a b) (ih (max a b))

theorem le_foldl_max_of_mem {l : List ℚ} {x : ℚ} (h : x ∈ l) (a : ℚ) :
    x ≤ l.foldl max a := by
  induction l generalizing a with
  | nil => cases h
  | cons b t ih =>
    rcases List.mem_cons.mp h with rfl | hx
    · exact le_trans (le_max_right a x) (init_le_foldl_max t (max a x))
    · exact ih hx (max a b)

theorem foldl_min_eq_of_le {l : List ℚ} {a : ℚ} (h : ∀ x ∈ l, a ≤ x) :
    l.foldl min a = a := by
  induction l with
  | nil => rfl
  | cons b t ih =>
    have hab : min a b = a := min_eq_left (h b (List.mem_cons_self b t))
    simp only [List.foldl_cons, hab]
    exact ih (fun x hx => h x (List.mem_cons_of_mem b hx))

theorem qMin_le_of_mem {l : List ℚ} {x : ℚ} (h : x ∈ l) : qMin l ≤ x := by
  cases l with
  | nil => cases h
  | cons b t =>
    rcases List.mem_cons.mp h with rfl | hx
    · exact foldl_min_le_init t x
    · exact foldl_min_le_of_mem hx b

theorem le_qMax_of_mem {l : List ℚ} {x : ℚ} (h : x ∈ l) : x ≤ qMax l := by
  cases l with
  | nil => cases h
  | cons b t =>
    rcases List.mem_cons.mp h with rfl | hx
    · exact init_le_foldl_max t x
    · exact le_foldl_max_of_mem hx b

theorem minDepth_le_of_mem {sd : List WellDataPoint} {p : WellDataPoint}
    (hp : p ∈ sd) : minDepth sd ≤ p.depth :=
  qMin_le_of_mem (List.mem_map_of_mem (·.depth) hp)

theorem le_maxDepth_of_mem {sd : List WellDataPoint} {p : WellDataPoint}
    (hp : p ∈ sd) : p.depth ≤ maxDepth sd :=
  le_qMax_of_mem (List.mem_map_of_mem (·.depth) hp)

theorem minDepth_cons_of_sorted {p : WellDataPoint} {t : List WellDataPoint}
    (hs : (p :: t).Sorted depthLE) : minDepth (p :: t) = p.depth := by
  unfold minDepth qMin
  simp only [List.map_cons]
  exact foldl_min_eq_of_le (fun x hx => by
    obtain ⟨q, hq, rfl⟩ := List.mem_map.mp hx
    exact (List.pairwise_cons.mp hs).1 q hq)

theorem scaleDepth_eq_val {sd : List WellDataPoint} (h : depthRange sd ≠ 0)
    (d : ℚ) :
    scaleDepth sd d
      = .val (paddingTop + (d - minDepth sd) / depthRange sd * plotHeight) := by
  unfold scaleDepth jsDiv
  simp [h, JSNum.mulQ, JSNum.addL]

theorem depth_eq_minDepth_of_degenerate {sd : List WellDataPoint}
    (h : depthRange sd = 0) {p : WellDataPoint} (hp : p ∈ sd) :
    p.depth = minDepth sd := by
  have h1 : minDepth sd ≤ p.depth := minDepth_le_of_mem hp
  have h2 : p.depth ≤ maxDepth sd := le_maxDepth_of_mem hp
  have h3 : maxDepth sd = minDepth sd := by
    have := sub_eq_zero.mp h
    exact this
  exact le_antisymm (h3 ▸ h2) h1

theorem scaleDepth_degenerate {sd : List WellDataPoint} (h : depthRange sd = 0)
    {p : WellDataPoint} (hp : p ∈ sd) : scaleDepth sd p.depth = .nan := by
  have hd : p.depth - minDepth sd = 0 :=
    sub_eq_zero.mpr (depth_eq_minDepth_of_degenerate h hp)
  unfold scaleDepth jsDiv
  simp [h, hd, JSNum.mulQ, JSNum.addL]

theorem scaleDepth_of_mem {sd : List WellDataPoint} {p : WellDataPoint}
    (hp : p ∈ sd) :
    scaleDepth sd p.depth = .nan ∨ ∃ q, scaleDepth sd p.depth = .val q := by
  by_cases h : depthRange sd = 0
  · exact Or.inl (scaleDepth_degenerate h hp)
  · exact Or.inr ⟨_, scaleDepth_eq_val h p.depth⟩

theorem scaleDepth_min_eq {sd : List WellDataPoint} (h : depthRange sd ≠ 0) :
    scaleDepth sd (minDepth sd) = .val paddingTop := by
  rw [scaleDepth_eq_val h]
  congr 1
  rw [sub_self, zero_div, zero_mul, add_zero]

theorem scaleDepth_max_eq {sd : List WellDataPoint} (h : depthRange sd ≠ 0) :
    scaleDepth sd (maxDepth sd) = .val (chartHeight - paddingBottom) := by
  rw [scaleDepth_eq_val h]
  congr 1
  have : maxDepth sd - minDepth sd = depthRange sd := rfl
  rw [this, div_self h]
  norm_num [plotHeight, chartHeight, paddingTop, paddingBottom]

/-- C1 (the code lacks the required degenerate-range guard): on the
one-record dataset `degenEx` every domain is degenerate and all three scale
functions evaluate to `NaN` via a `0/0` division, not to the midpoint of
their pixel ranges (290 for depth, 210 for DT, 730 for GR). -/
theorem scale_degenerate_is_nan_not_midpoint :
    scaleDepth (sortedData degenEx) 100 = .nan ∧
    scaleDT (sortedData degenEx) 80 = .nan ∧
    scaleGR (sortedData degenEx) 40 = .nan ∧
    (paddingTop + plotHeight / 2 = 290) ∧
    (paddingLeft + columnWidth * (0.1 : ℚ) + columnWidth * (0.8 : ℚ) / 2 = 210) ∧
    (paddingLeft + columnWidth * (2.1 : ℚ) + columnWidth * (0.8 : ℚ) / 2 = 730) ∧
    (∀ q : ℚ, JSNum.nan ≠ JSNum.val q) := by
  have h : sortedData degenEx = [⟨100, "Shale", 80, 40⟩] := by decide
  refine ⟨?_, ?_, ?_, ?_, ?_, ?_, fun q h => JSNum.noConfusion h⟩
  · rw [h]
    simp [scaleDepth, minDepth, maxDepth, depthRange, qMin, qMax, jsDiv,
      JSNum.mulQ, JSNum.addL]
  · rw [h]
    simp [scaleDT, minDT, maxDT, qMin, qMax, jsDiv, JSNum.mulQ, JSNum.addL]
  · rw [h]
    simp [scaleGR, minGR, maxGR, qMin, qMax, jsDiv, JSNum.mulQ, JSNum.addL]
  · norm_num [paddingTop, plotHeight, chartHeight, paddingBottom]
  · norm_num [paddingLeft, columnWidth, plotWidth, chartWidth, paddingRight]
  · norm_num [paddingLeft, columnWidth, plotWidth, chartWidth, paddingRight]

/-- C4: the empty dataset renders the explicit no-data state, and any
non-empty dataset renders a chart, never the no-data state. -/
theorem render_empty_input :
    render [] = RenderResult.emptyInput ∧
    ∀ data : List WellDataPoint, data ≠ [] → render data ≠ RenderResult.emptyInput := by
  constructor
  · rfl
  · intro data hd
    cases data with
    | nil => exact absurd rfl hd
    | cons x xs => simp [render]

/-- C4 witness: the guard is not taken on a concrete non-empty dataset. -/
theorem render_empty_input_witness :
    stdEx ≠ [] ∧ render stdEx ≠ RenderResult.emptyInput :=
  ⟨by decide, render_empty_input.2 stdEx (by decide)⟩

theorem filter_orderedInsert (d : ℚ) (a : WellDataPoint)
    (l : List WellDataPoint) :
    (List.orderedInsert depthLE a l).filter (fun p => decide (p.depth = d))
      = if a.depth = d
        then a :: l.filter (fun p => decide (p.depth = d))
        else l.filter (fun p => decide (p.depth = d)) := by
  induction l with
  | nil =>
    by_cases hd : a.depth = d <;> simp [List.orderedInsert, List.filter, hd]
  | cons b t ih =>
    by_cases hab : depthLE a b
    · by_cases hd : a.depth = d <;>
        simp [List.orderedInsert, hab, List.filter_cons, hd]
    · have hba : b.depth < a.depth := lt_of_not_le hab
      by_cases hd : a.depth = d
      · have hbd : b.depth ≠ d := fun hb => (ne_of_lt hba) (hb.trans hd.symm)
        simp [List.orderedInsert, hab, List.filter_cons, hd, hbd, ih]
      · by_cases hbd : b.depth = d <;>
          simp [List.orderedInsert, hab, List.filter_cons, hd, hbd, ih]

/-- C6: the normalizer's sort is a permutation of the input, sorted
non-decreasingly by depth, and stable: for every depth value, the records at
that depth appear in the sorted output exactly in their input order. -/
theorem sortedData_sorted_stable (data : List WellDataPoint) :
    (sortedData data).Perm data ∧
    (sortedData data).Sorted depthLE ∧
    ∀ d : ℚ, (sortedData data).filter (fun p => decide (p.depth = d))
      = data.filter (fun p => decide (p.depth = d)) := by
  refine ⟨List.perm_insertionSort depthLE data,
    List.sorted_insertionSort depthLE data, fun d => ?_⟩
  induction data with
  | nil => rfl
  | cons x xs ih =>
    have hx : sortedData (x :: xs) = List.orderedInsert depthLE x (sortedData xs) := rfl
    rw [hx, filter_orderedInsert d x (sortedData xs)]
    by_cases hd : x.depth = d <;> simp [List.filter_cons, hd, ih]

/-- C7: when the depth domain is non-degenerate, the depth scale maps the
minimum depth exactly to the top of the plot area (`padding.top`) and the
maximum depth exactly to its bottom (`chartHeight - padding.bottom`). -/
theorem scaleDepth_maps_endpoints (data : List WellDataPoint)
    (h : minDepth (sortedData data) < maxDepth (sortedData data)) :
    scaleDepth (sortedData data) (minDepth (sortedData data)) = .val paddingTop ∧
    scaleDepth (sortedData data) (maxDepth (sortedData data))
      = .val (chartHeight - paddingBottom) := by
  have hr : depthRange (sortedData data) ≠ 0 := sub_ne_zero.mpr (ne_of_gt h)
  exact ⟨scaleDepth_min_eq hr, scaleDepth_max_eq hr⟩

/-- C7 witness: endpoint mapping on the two-record example dataset. -/
theorem scaleDepth_maps_endpoints_witness :
    minDepth (sortedData stdEx) < maxDepth (sortedData stdEx) ∧
    (scaleDepth (sortedData stdEx) (minDepth (sortedData stdEx)) = .val paddingTop ∧
     scaleDepth (sortedData stdEx) (maxDepth (sortedData stdEx))
       = .val (chartHeight - paddingBottom)) :=
  ⟨by decide, scaleDepth_maps_endpoints stdEx (by decide)⟩

theorem sortedData_eq_of_perm {l1 l2 : List WellDataPoint} (hperm : l2.Perm l1)
    (hdist : l1.Pairwise fun a b => a.depth ≠ b.depth) :
    sortedData l1 = sortedData l2 := by
  have hsymm : ∀ {x y : WellDataPoint}, x.depth ≠ y.depth → y.depth ≠ x.depth :=
    fun h => Ne.symm h
  have hp : (sortedData l1).Perm (sortedData l2) :=
    (List.perm_insertionSort depthLE l1).trans
      (hperm.symm.trans (List.perm_insertionSort depthLE l2).symm)
  have hd1 : (sortedData l1).Pairwise fun a b => a.depth ≠ b.depth :=
    ((List.perm_insertionSort depthLE l1).pairwise_iff hsymm).mpr hdist
  have hd2 : (sortedData l2).Pairwise fun a b => a.depth ≠ b.depth :=
    (((List.perm_insertionSort depthLE l2).trans hperm).pairwise_iff hsymm).mpr hdist
  have ht1 : (sortedData l1).Sorted depthLT :=
    ((List.sorted_insertionSort depthLE l1).and hd1).imp
      (fun h => lt_of_le_of_ne h.1 h.2)
  have ht2 : (sortedData l2).Sorted depthLT :=
    ((List.sorted_insertionSort depthLE l2).and hd2).imp
      (fun h => lt_of_le_of_ne h.1 h.2)
  exact List.eq_of_perm_of_sorted hp ht1 ht2

/-- C2 (amended: restricted to datasets with pairwise-distinct depths):
rendering a permutation of a dataset whose depths are pairwise distinct
yields the identical sorted order, color assignment and layout geometry. -/
theorem render_perm_invariant (l1 l2 : List WellDataPoint) (hperm : l2.Perm l1)
    (hdist : l1.Pairwise fun a b => a.depth ≠ b.depth) :
    render l1 = render l2 := by
  have hs : sortedData l1 = sortedData l2 := sortedData_eq_of_perm hperm hdist
  have hlen := hperm.length_eq
  cases l1 with
  | nil =>
    cases l2 with
    | nil => rfl
    | cons y ys => simp at hlen
  | cons x xs =>
    cases l2 with
    | nil => simp at hlen
    | cons y ys =>
      unfold render
      rw [hs]
      rfl

/-- C2 counterexample: the two orderings of one dataset containing two
distinct records at the same depth sort differently (the sort is stable), get
different color tables, and render different layouts. -/
theorem render_not_perm_invariant :
    tieEx2.Perm tieEx1 ∧
    sortedData tieEx1 ≠ sortedData tieEx2 ∧
    colorMap (sortedData tieEx1) ≠ colorMap (sortedData tieEx2) ∧
    render tieEx1 ≠ render tieEx2 := by
  refine ⟨by decide, by decide, by decide, fun h => ?_⟩
  have h1 : render tieEx1 = .chart (renderSorted (sortedData tieEx1)) := rfl
  have h2 : render tieEx2 = .chart (renderSorted (sortedData tieEx2)) := rfl
  rw [h1, h2] at h
  injection h with h3
  have h4 := congrArg Layout.sorted h3
  simp only [renderSorted] at h4
  exact (by decide : sortedData tieEx1 ≠ sortedData tieEx2) h4

/-- C2 witness: the two orderings of the distinct-depth example render
identically. -/
theorem render_perm_invariant_witness :
    stdExRev.Perm stdEx ∧
    (stdEx.Pairwise fun a b => a.depth ≠ b.depth) ∧
    render stdEx = render stdExRev :=
  ⟨by decide, by decide,
    render_perm_invariant stdEx stdExRev (by decide) (by decide)⟩

theorem mem_firstSeenAux {x : String} :
    ∀ {seen l : List String}, x ∈ firstSeenAux seen l ↔ (x ∈ l ∧ x ∉ seen) := by
  intro seen l
  induction l generalizing seen with
  | nil => simp [firstSeenAux]
  | cons y ys ih =>
    by_cases hy : y ∈ seen
    · simp only [firstSeenAux, if_pos hy, ih, List.mem_cons]
      constructor
      · rintro ⟨hx, hns⟩; exact ⟨Or.inr hx, hns⟩
      · rintro ⟨hx | hx, hns⟩
        · exact absurd (hx ▸ hy) hns
        · exact ⟨hx, hns⟩
    · simp only [firstSeenAux, if_neg hy, List.mem_cons, ih]
      constructor
      · rintro (rfl | ⟨hx, hns⟩)
        · exact ⟨Or.inl rfl, hy⟩
        · exact ⟨Or.inr hx, fun hs => hns (Or.inr hs)⟩
      · rintro ⟨rfl | hx, hns⟩
        · exact Or.inl rfl
        · by_cases hxy : x = y
          · exact Or.inl hxy
          · exact Or.inr ⟨hx, fun h => h.elim hxy hns⟩

theorem nodup_firstSeenAux : ∀ (seen l : List String), (firstSeenAux seen l).Nodup := by
  intro seen l
  induction l generalizing seen with
  | nil => exact List.nodup_nil
  | cons y ys ih =>
    by_cases hy : y ∈ seen
    · simpa [firstSeenAux, if_pos hy] using ih seen
    · simp only [firstSeenAux, if_neg hy]
      refine List.nodup_cons.mpr ⟨fun hmem => ?_, ih (y :: seen)⟩
      exact (mem_firstSeenAux.mp hmem).2 (List.mem_cons_self y seen)

theorem pairwise_indexOf_firstSeenAux :
    ∀ (seen l : List String),
      (firstSeenAux seen l).Pairwise (fun a b => l.indexOf a < l.indexOf b) := by
  intro seen l
  induction l generalizing seen with
  | nil => exact List.Pairwise.nil
  | cons y ys ih =>
    by_cases hy : y ∈ seen
    · rw [firstSeenAux, if_pos hy]
      refine (ih seen).imp_of_mem (fun {a b} ha hb hab => ?_)
      have hay : a ≠ y := fun h => (mem_firstSeenAux.mp ha).2 (h ▸ hy)
      have hby : b ≠ y := fun h => (mem_firstSeenAux.mp hb).2 (h ▸ hy)
      rw [List.indexOf_cons_ne ys (Ne.symm hay), List.indexOf_cons_ne ys (Ne.symm hby)]
      exact Nat.succ_lt_succ hab
    · rw [firstSeenAux, if_neg hy]
      refine List.pairwise_cons.mpr ⟨fun b hb => ?_, ?_⟩
      · have hbmem := mem_firstSeenAux.mp hb
        have hby : b ≠ y := fun h => hbmem.2 (h ▸ List.mem_cons_self y seen)
        rw [List.indexOf_cons_self, List.indexOf_cons_ne ys (Ne.symm hby)]
        exact Nat.succ_pos _
      · refine (ih (y :: seen)).imp_of_mem (fun {a b} ha hb hab => ?_)
        have hay : a ≠ y := fun h => (mem_firstSeenAux.mp ha).2 (h ▸ List.mem_cons_self y seen)
        have hby : b ≠ y := fun h => (mem_firstSeenAux.mp hb).2 (h ▸ List.mem_cons_self y seen)
        rw [List.indexOf_cons_ne ys (Ne.symm hay), List.indexOf_cons_ne ys (Ne.symm hby)]
        exact Nat.succ_lt_succ hab

theorem setKey_append {m : List (String × String)} {k v : String}
    (h : ∀ e ∈ m, e.1 ≠ k) : setKey m k v = m ++ [(k, v)] := by
  induction m with
  | nil => rfl
  | cons e rest ih =>
    obtain ⟨k0, v0⟩ := e
    have hk0 : k0 ≠ k := h (k0, v0) (List.mem_cons_self _ _)
    simp only [setKey, if_neg hk0, List.cons_append]
    exact congrArg _ (ih (fun e he => h e (List.mem_cons_of_mem _ he)))

theorem foldl_setKey_enumFrom (rocks : List String) :
    ∀ (j : ℕ) (m : List (String × String)), rocks.Nodup →
      (∀ e ∈ m, e.1 ∉ rocks) →
      (rocks.enumFrom j).foldl
          (fun m iv => setKey m iv.2 (colors.getD (iv.1 % colors.length) "")) m
        = m ++ (rocks.enumFrom j).map
            (fun iv => (iv.2, colors.getD (iv.1 % colors.length) "")) := by
  induction rocks with
  | nil => intro j m _ _; simp
  | cons r rest ih =>
    intro j m hnd hm
    have hstep : setKey m r (colors.getD (j % colors.length) "")
        = m ++ [(r, colors.getD (j % colors.length) "")] :=
      setKey_append (fun e he => fun hek =>
        hm e he (hek ▸ List.mem_cons_self r rest))
    simp only [List.enumFrom, List.foldl_cons, List.map_cons]
    rw [hstep, ih (j + 1) _ (List.nodup_cons.mp hnd).2 ?_]
    · simp
    · intro e he
      rcases List.mem_append.mp he with hel | her
      · exact fun hc => hm e hel (List.mem_cons_of_mem r hc)
      · have : e = (r, colors.getD (j % colors.length) "") := List.mem_singleton.mp her
        rw [this]
        exact (List.nodup_cons.mp hnd).1

theorem buildColorMap_eq_map {rocks : List String} (h : rocks.Nodup) :
    buildColorMap rocks
      = rocks.enum.map (fun iv => (iv.2, colors.getD (iv.1 % colors.length) "")) := by
  unfold buildColorMap
  exact foldl_setKey_enumFrom rocks 0 [] h (by simp)

/-- C3: the color table has exactly one entry per distinct category (its keys
are exactly the distinct categories and are pairwise different), the keys
appear in first-seen order (sorted by index of first occurrence), the k-th
key receives palette color `k % colors.length`; on the spec's example the
table is the three first-seen categories with the first three (pairwise
distinct) palette colors, and an 11th distinct category wraps around to the
first palette color. -/
theorem colorMap_first_seen_assignment (cats : List String) :
    (distinctFirstSeen cats).Nodup ∧
    (∀ c, c ∈ distinctFirstSeen cats ↔ c ∈ cats) ∧
    (distinctFirstSeen cats).Pairwise (fun a b => cats.indexOf a < cats.indexOf b) ∧
    buildColorMap (distinctFirstSeen cats)
      = (distinctFirstSeen cats).enum.map
          (fun iv => (iv.2, colors.getD (iv.1 % colors.length) "")) ∧
    distinctFirstSeen ["Sandstone", "Shale", "Sandstone", "Limestone"]
      = ["Sandstone", "Shale", "Limestone"] ∧
    buildColorMap ["Sandstone", "Shale", "Limestone"]
      = [("Sandstone", "#8b5cf6"), ("Shale", "#ec4899"), ("Limestone", "#f59e0b")] ∧
    (["#8b5cf6", "#ec4899", "#f59e0b"] : List String).Nodup ∧
    lookupColor (buildColorMap
        ["c01", "c02", "c03", "c04", "c05", "c06", "c07", "c08", "c09", "c10", "c11"])
        "c11"
      = some "#8b5cf6" := by
  refine ⟨nodup_firstSeenAux [] cats,
    fun c => by simpa using (@mem_firstSeenAux c [] cats),
    pairwise_indexOf_firstSeenAux [] cats,
    buildColorMap_eq_map (nodup_firstSeenAux [] cats),
    by decide, by decide, by decide, by decide⟩

theorem rockBands_get? (sd : List WellDataPoint) (i : ℕ) :
    (rockBands sd).get? i = (sd.get? i).map (mkRockBand sd i) := by
  unfold rockBands
  rw [List.get?_map, List.get?_enum]
  cases sd.get? i <;> rfl

theorem rockBands_length (sd : List WellDataPoint) :
    (rockBands sd).length = sd.length := by
  simp [rockBands]

theorem mem_rockBands {sd : List WellDataPoint} {b : RockBand}
    (hb : b ∈ rockBands sd) :
    ∃ i point, sd.get? i = some point ∧ b = mkRockBand sd i point := by
  obtain ⟨ip, hip, hb2⟩ := List.mem_map.mp hb
  exact ⟨ip.1, ip.2, List.mem_enum_iff_get?.mp hip, hb2.symm⟩

theorem mkRockBand_y1 (sd : List WellDataPoint) (i : ℕ) (p : WellDataPoint) :
    (mkRockBand sd i p).y1 = scaleDepth sd p.depth := rfl

theorem mkRockBand_y2_some {sd : List WellDataPoint} {i : ℕ}
    (p : WellDataPoint) {np : WellDataPoint} (h : sd.get? (i + 1) = some np) :
    (mkRockBand sd i p).y2 = scaleDepth sd np.depth := by
  rw [List.get?_eq_getElem?] at h
  simp [mkRockBand, h]

theorem mkRockBand_y2_none {sd : List WellDataPoint} {i : ℕ}
    (p : WellDataPoint) (h : sd.get? (i + 1) = none) :
    (mkRockBand sd i p).y2 = JSNum.val (chartHeight - paddingBottom) := by
  rw [List.get?_eq_getElem?] at h
  simp [mkRockBand, h]

/-- C5: one band per sorted measurement; band `i` starts at the scaled depth
of measurement `i` and ends at the scaled depth of measurement `i + 1`; the
first band starts at the scaled minimum depth, adjacent bands share their
boundary (no gap, no overlap), and the last band ends at the plot's bottom
edge. -/
theorem rockBands_cover (data : List WellDataPoint) (hne : data ≠ []) :
    bandsCoverSpec data := by
  have hsorted : (sortedData data).Sorted depthLE :=
    List.sorted_insertionSort depthLE data
  refine ⟨rockBands_length _, ?_, ?_, ?_, ?_⟩
  · intro i point hp
    refine ⟨mkRockBand (sortedData data) i point, ?_, rfl, ?_, ?_⟩
    · rw [rockBands_get?, hp]; rfl
    · intro np hnp; exact mkRockBand_y2_some point hnp
    · intro hnone; exact mkRockBand_y2_none point hnone
  · intro b hb
    rw [rockBands_get?] at hb
    cases hp : (sortedData data).get? 0 with
    | none => rw [hp] at hb; cases hb
    | some p0 =>
      rw [hp] at hb
      injection hb with hb
      subst hb
      rw [mkRockBand_y1]
      cases hsd : sortedData data with
      | nil => rw [hsd] at hp; cases hp
      | cons q t =>
        rw [hsd] at hp
        injection hp with hp
        subst hp
        rw [← hsd]
        congr 1
        rw [hsd]
        exact (minDepth_cons_of_sorted (hsd ▸ hsorted)).symm
  · intro i b b2 hb hb2
    rw [rockBands_get?] at hb hb2
    cases hp : (sortedData data).get? i with
    | none => rw [hp] at hb; cases hb
    | some p =>
      cases hp2 : (sortedData data).get? (i + 1) with
      | none => rw [hp2] at hb2; cases hb2
      | some p2 =>
        rw [hp] at hb
        rw [hp2] at hb2
        injection hb with hb
        injection hb2 with hb2
        subst hb
        subst hb2
        rw [mkRockBand_y2_some p hp2, mkRockBand_y1]
  · intro b hb
    rw [rockBands_get?] at hb
    cases hp : (sortedData data).get? ((sortedData data).length - 1) with
    | none => rw [hp] at hb; cases hb
    | some p =>
      rw [hp] at hb
      injection hb with hb
      subst hb
      have hpos : 0 < (sortedData data).length := by
        have hpm : (sortedData data).length = data.length :=
          (List.perm_insertionSort depthLE data).length_eq
        rw [hpm]
        exact List.length_pos.mpr hne
      have hnone : (sortedData data).get? ((sortedData data).length - 1 + 1) = none :=
        List.get?_len_le (by omega)
      exact mkRockBand_y2_none p hnone

/-- C5 witness: the band structure on the two-record example dataset. -/
theorem rockBands_cover_witness : stdEx ≠ [] ∧ bandsCoverSpec stdEx :=
  ⟨by decide, rockBands_cover stdEx (by decide)⟩

theorem gtQ_sub_iff {x y : JSNum}
    (hx : x = .nan ∨ ∃ q, x = .val q) (hy : y = .nan ∨ ∃ q, y = .val q) :
    ((JSNum.sub x y).gtQ 20 = true)
      ↔ ∃ hgt : ℚ, JSNum.sub x y = .val hgt ∧ 20 < hgt := by
  rcases hx with rfl | ⟨qx, rfl⟩ <;> rcases hy with rfl | ⟨qy, rfl⟩ <;>
    simp [JSNum.sub, JSNum.gtQ]

/-- C8: a band's category label is rendered (the `barHeight > 20` guard) iff
the band's pixel height `y2 - y1` is a finite value strictly greater than
20; in every other case (including a `NaN` height) only the fill is drawn. -/
theorem band_label_iff_height (sd : List WellDataPoint) (b : RockBand)
    (hb : b ∈ rockBands sd) :
    b.labelShown = true
      ↔ ∃ hgt : ℚ, JSNum.sub b.y2 b.y1 = JSNum.val hgt ∧ 20 < hgt := by
  obtain ⟨i, p, hp, rfl⟩ := mem_rockBands hb
  have h1 : (mkRockBand sd i p).y1 = .nan ∨ ∃ q, (mkRockBand sd i p).y1 = .val q := by
    rw [mkRockBand_y1]
    exact scaleDepth_of_mem (List.get?_mem hp)
  have h2 : (mkRockBand sd i p).y2 = .nan ∨ ∃ q, (mkRockBand sd i p).y2 = .val q := by
    cases hnp : sd.get? (i + 1) with
    | none => exact Or.inr ⟨_, mkRockBand_y2_none p hnp⟩
    | some np =>
      rw [mkRockBand_y2_some p hnp]
      exact scaleDepth_of_mem (List.get?_mem hnp)
  have hlabel : (mkRockBand sd i p).labelShown
      = (JSNum.sub (mkRockBand sd i p).y2 (mkRockBand sd i p).y1).gtQ 20 := rfl
  rw [hlabel]
  exact gtQ_sub_iff h2 h1

/-- C8 witness: the first band of the example dataset is tall enough and its
label is shown. -/
theorem band_label_iff_height_witness :
    (mkRockBand (sortedData stdEx) 0 ⟨100, "Shale", 80, 40⟩
      ∈ rockBands (sortedData stdEx)) ∧
    ((mkRockBand (sortedData stdEx) 0 ⟨100, "Shale", 80, 40⟩).labelShown = true
      ↔ ∃ hgt : ℚ,
          JSNum.sub (mkRockBand (sortedData stdEx) 0 ⟨100, "Shale", 80, 40⟩).y2
              (mkRockBand (sortedData stdEx) 0 ⟨100, "Shale", 80, 40⟩).y1
            = JSNum.val hgt ∧ 20 < hgt) := by
  have hmem : mkRockBand (sortedData stdEx) 0 ⟨100, "Shale", 80, 40⟩
      ∈ rockBands (sortedData stdEx) := by
    refine List.mem_map.mpr ⟨(0, ⟨100, "Shale", 80, 40⟩), ?_, rfl⟩
    rw [show sortedData stdEx = stdEx from by decide]
    decide
  exact ⟨hmem, band_label_iff_height (sortedData stdEx) _ hmem⟩

theorem lookup_enumFrom_map {c : String} :
    ∀ (rocks : List String) (j : ℕ), c ∈ rocks →
      ∃ i, lookupColor
          ((List.enumFrom j rocks).map
            (fun iv => (iv.2, colors.getD (iv.1 % colors.length) ""))) c
        = some (colors.getD (i % colors.length) "") := by
  intro rocks
  induction rocks with
  | nil => intro j hc; cases hc
  | cons r rest ih =>
    intro j hc
    have he : List.enumFrom j (r :: rest) = (j, r) :: List.enumFrom (j + 1) rest := rfl
    by_cases hr : r = c
    · refine ⟨j, ?_⟩
      rw [he, List.map_cons]
      unfold lookupColor
      rw [List.find?_cons_of_pos _ (by simp [hr])]
      rfl
    · obtain ⟨i, hi⟩ := ih (j + 1)
        (by rcases List.mem_cons.mp hc with h | h; exacts [absurd h.symm hr, h])
      refine ⟨i, ?_⟩
      rw [he, List.map_cons]
      unfold lookupColor at hi ⊢
      rw [List.find?_cons_of_neg _ (by simp [hr])]
      exact hi

theorem lookupColor_buildColorMap {rocks : List String} (hnd : rocks.Nodup)
    {c : String} (hc : c ∈ rocks) :
    ∃ col, lookupColor (buildColorMap rocks) c = some col ∧ col ∈ colors := by
  rw [buildColorMap_eq_map hnd]
  obtain ⟨i, hi⟩ := lookup_enumFrom_map rocks 0 hc
  refine ⟨colors.getD (i % colors.length) "", hi, ?_⟩
  have hlt : i % colors.length < colors.length := Nat.mod_lt _ (by decide)
  rw [List.getD_eq_getElem colors "" hlt]
  exact List.getElem_mem hlt

/-- C9: every band's category is a key of the color map, the lookup yields a
palette color, and the fill is that palette color — the `'#64748b'` fallback
of the fill expression is unreachable. -/
theorem band_fill_palette (data : List WellDataPoint) (_hne : data ≠ []) :
    bandFillSpec data := by
  intro b hb
  obtain ⟨i, p, hp, rfl⟩ := mem_rockBands hb
  have hpmem : p ∈ sortedData data := List.get?_mem hp
  have hcmem : p.rockComposition ∈ rockTypes (sortedData data) :=
    mem_firstSeenAux.mpr
      ⟨List.mem_map_of_mem (·.rockComposition) hpmem, List.not_mem_nil _⟩
  have hnd : (rockTypes (sortedData data)).Nodup := nodup_firstSeenAux [] _
  obtain ⟨col, hcol, hcolmem⟩ := lookupColor_buildColorMap hnd hcmem
  have hcat : (mkRockBand (sortedData data) i p).category = p.rockComposition := rfl
  have hcm : colorMap (sortedData data) = buildColorMap (rockTypes (sortedData data)) := rfl
  have hne2 : col ≠ "" := by
    revert hcolmem
    exact (by decide : ∀ x ∈ colors, x ≠ "") col
  have hfill : (mkRockBand (sortedData data) i p).fill = col := by
    have : (mkRockBand (sortedData data) i p).fill
        = jsOrElse (lookupColor (colorMap (sortedData data)) p.rockComposition)
            fallbackFill := rfl
    rw [this, hcm, hcol]
    simp [jsOrElse, hne2]
  refine ⟨⟨col, ?_, hcolmem⟩, ?_, ?_⟩
  · rw [hcat, hcm]
    exact hcol
  · rw [hfill]
    exact hcolmem
  · rw [hfill]
    exact (by decide : ∀ x ∈ colors, x ≠ fallbackFill) col hcolmem

/-- C9 witness: on the example dataset the fallback is not used. -/
theorem band_fill_palette_witness : stdEx ≠ [] ∧ bandFillSpec stdEx :=
  ⟨by decide, band_fill_palette stdEx (by decide)⟩

theorem scaleDepth_mono {sd : List WellDataPoint}
    (h : minDepth sd < maxDepth sd) {d1 d2 : ℚ} (hd : d1 ≤ d2) :
    ∃ q1 q2 : ℚ, scaleDepth sd d1 = .val q1 ∧ scaleDepth sd d2 = .val q2 ∧
      q1 ≤ q2 := by
  have hr0 : (0 : ℚ) < depthRange sd := sub_pos.mpr h
  have hr : depthRange sd ≠ 0 := ne_of_gt hr0
  refine ⟨_, _, scaleDepth_eq_val hr d1, scaleDepth_eq_val hr d2, ?_⟩
  have hph : (0 : ℚ) ≤ plotHeight := by
    norm_num [plotHeight, chartHeight, paddingTop, paddingBottom]
  apply add_le_add_left
  apply mul_le_mul_of_nonneg_right _ hph
  exact (div_le_div_iff_of_pos_right hr0).mpr (sub_le_sub_right hd _)

theorem scaleDepth_le_bottom {sd : List WellDataPoint}
    (h : minDepth sd < maxDepth sd) {d : ℚ} (hd : d ≤ maxDepth sd) :
    ∃ q, scaleDepth sd d = .val q ∧ q ≤ chartHeight - paddingBottom := by
  obtain ⟨q1, q2, h1, h2, h12⟩ := scaleDepth_mono h hd
  rw [scaleDepth_max_eq (ne_of_gt (sub_pos.mpr h))] at h2
  injection h2 with h2
  exact ⟨q1, h1, h2 ▸ h12⟩

/-- C10: with a non-degenerate depth domain the depth scale is monotone
non-decreasing, and every band of the depth-sorted data has a non-negative
finite pixel height. -/
theorem depthScale_monotone (data : List WellDataPoint)
    (h : minDepth (sortedData data) < maxDepth (sortedData data)) :
    depthScaleMonotoneSpec data := by
  refine ⟨fun d1 d2 hd => scaleDepth_mono h hd, ?_⟩
  intro b hb
  obtain ⟨i, p, hp, rfl⟩ := mem_rockBands hb
  have hsorted : (sortedData data).Sorted depthLE :=
    List.sorted_insertionSort depthLE data
  cases hnp : (sortedData data).get? (i + 1) with
  | some np =>
    have hple : p.depth ≤ np.depth := by
      obtain ⟨hi, hgi⟩ := List.get?_eq_some.mp hp
      obtain ⟨hj, hgj⟩ := List.get?_eq_some.mp hnp
      have hpair := List.pairwise_iff_getElem.mp hsorted i (i + 1) hi hj
        (Nat.lt_succ_self i)
      rw [List.get_eq_getElem] at hgi hgj
      rw [← hgi, ← hgj]
      exact hpair
    obtain ⟨q1, q2, h1, h2, h12⟩ := scaleDepth_mono h hple
    refine ⟨q2 - q1, ?_, by linarith⟩
    rw [mkRockBand_y2_some p hnp, mkRockBand_y1, h1, h2]
    rfl
  | none =>
    have hple : p.depth ≤ maxDepth (sortedData data) :=
      le_maxDepth_of_mem (List.get?_mem hp)
    obtain ⟨q1, h1, hle⟩ := scaleDepth_le_bottom h hple
    refine ⟨chartHeight - paddingBottom - q1, ?_, by linarith⟩
    rw [mkRockBand_y2_none p hnp, mkRockBand_y1, h1]
    rfl

/-- C10 witness: monotonicity and band heights on the example dataset. -/
theorem depthScale_monotone_witness :
    minDepth (sortedData stdEx) < maxDepth (sortedData stdEx) ∧
    depthScaleMonotoneSpec stdEx :=
  ⟨by decide, depthScale_monotone stdEx (by decide)⟩

end WellChart
